/-
Verification of the ButterPaper icon-asset codec and validation pipeline.

The definitions below are a shallow embedding of the Python sources
`scripts/validate_app_icons.py` and `scripts/generate_app_icons.py`.
Byte strings are modelled as `List Nat` (each element a byte value),
fallible operations return `Except`/`Option`, and the distinct ways the
Python code can terminate (a returned value, a `fail()` call raising
`SystemExit` — the FormatError taxonomy — and an uncaught exception such
as `struct.error` or `zlib.error`) are modelled by distinct constructors.
Rational numbers stand in for Python's float division in the coverage
computation (the quantities involved are exact small-integer ratios).
-/

import Mathlib

deriving instance DecidableEq for Except

namespace ButterPaper

/-! ## Byte-level utilities (models of `struct.unpack_from` / `struct.pack`) -/

/-- Read a little-endian 16-bit integer at offset `off` (model of
`struct.unpack_from("<H", data, off)`; out-of-range bytes default to 0,
which only happens under length guards that the callers establish). -/
def readLE16 (d : List Nat) (off : Nat) : Nat :=
  d.getD off 0 + 256 * d.getD (off + 1) 0

/-- Read a big-endian 32-bit integer at offset `off` (model of
`struct.unpack_from(">I", data, off)`). -/
def readBE32 (d : List Nat) (off : Nat) : Nat :=
  d.getD off 0 * 16777216 + d.getD (off + 1) 0 * 65536 +
    d.getD (off + 2) 0 * 256 + d.getD (off + 3) 0

/-- Little-endian serialization of `v` into `n` bytes (model of
`struct.pack("<H", v)` / `struct.pack("<I", v)` after range checking). -/
def toLE : Nat → Nat → List Nat
  | 0, _ => []
  | n + 1, v => v % 256 :: toLE n (v / 256)

/-! ## ICO container reader (`validate_app_icons.parse_ico_sizes`) -/

/-- Error causes of the validator's `fail()` calls while parsing an ICO. -/
inductive IcoErr
  | tooShort
  | invalidHeader
  | directoryTruncated
  | nonSquareEntry
  deriving DecidableEq, Repr

/-- Resolve an ICO directory size byte: byte 0 denotes 256
(`width = 256 if width == 0 else width` in the source). -/
def icoResolveDim (b : Nat) : Nat :=
  if b == 0 then 256 else b

/-- The entry loop of `parse_ico_sizes`: starting at entry index `idx`
with `k` entries remaining, read each entry's width/height bytes at
offset `6 + idx*16`, resolve the 0-means-256 sentinel, fail on a
non-square entry, and collect the resolved widths. -/
def icoEntries (data : List Nat) : Nat → Nat → Except IcoErr (List Nat)
  | _, 0 => .ok []
  | idx, k + 1 =>
    if icoResolveDim (data.getD (6 + idx * 16) 0) ≠
        icoResolveDim (data.getD (6 + idx * 16 + 1) 0) then
      .error .nonSquareEntry
    else
      match icoEntries data (idx + 1) k with
      | .error e => .error e
      | .ok rest => .ok (icoResolveDim (data.getD (6 + idx * 16) 0) :: rest)

/-- Model of `parse_ico_sizes`: parse the 6-byte ICO header, check the
reserved/type fields, check the directory fits, then read every entry's
size. -/
def parse_ico_sizes (data : List Nat) : Except IcoErr (List Nat) :=
  if data.length < 6 then .error .tooShort
  else if readLE16 data 0 ≠ 0 ∨ readLE16 data 2 ≠ 1 then .error .invalidHeader
  else if data.length < 6 + (readLE16 data 4) * 16 then .error .directoryTruncated
  else icoEntries data 0 (readLE16 data 4)

/-! ## PNG header reader (`generate_app_icons.png_dimensions`) -/

/-- The 8-byte PNG signature `\x89PNG\r\n\x1a\n`. -/
def png_signature : List Nat := [137, 80, 78, 71, 13, 10, 26, 10]

/-- Errors of the generator-side PNG helpers (`ValueError` in the source). -/
inductive GenErr
  | notValidPng
  | notSquare
  | oversized
  | packRange
  deriving DecidableEq, Repr

/-- Model of `png_dimensions`: check length ≥ 24 and the PNG signature,
then read width and height as big-endian 32-bit integers from bytes
16..24 (`struct.unpack(">II", data[16:24])`). -/
def png_dimensions (data : List Nat) : Except GenErr (Nat × Nat) :=
  if data.length < 24 ∨ data.take 8 ≠ png_signature then .error .notValidPng
  else .ok (readBE32 data 16, readBE32 data 20)

/-! ## ICO container builder (`generate_app_icons.build_ico`) -/

/-- Encode an ICO directory dimension byte: 256 is written as 0
(`entry_width = 0 if width == 256 else width` in the source). -/
def icoEncodeDim (w : Nat) : Nat :=
  if w == 256 then 0 else w

/-- One 16-byte ICO directory entry, the model of
`struct.pack("<BBBBHHII", w, h, 0, 0, 1, 32, len, off)`. -/
def entryBytes (w h len off : Nat) : List Nat :=
  w :: h :: 0 :: 0 :: (toLE 2 1 ++ toLE 2 32 ++ toLE 4 len ++ toLE 4 off)

/-- The entry loop of `build_ico`: for each payload, read its dimensions
via `png_dimensions`, reject non-square or oversized images, model the
`struct.pack` range constraints on the 32-bit length/offset fields, and
accumulate the directory bytes and the concatenated payload blob.
`offset` is the running cumulative payload offset. -/
def buildEntries : List (List Nat) → Nat → Except GenErr (List Nat × List Nat)
  | [], _ => .ok ([], [])
  | blob :: rest, offset =>
    match png_dimensions blob with
    | .error _ => .error .notValidPng
    | .ok (w, h) =>
      if w ≠ h then .error .notSquare
      else if 256 < w ∨ 256 < h then .error .oversized
      else if 4294967296 ≤ blob.length ∨ 4294967296 ≤ offset then .error .packRange
      else
        match buildEntries rest (offset + blob.length) with
        | .error e => .error e
        | .ok (dir, payload) =>
          .ok (entryBytes (icoEncodeDim w) (icoEncodeDim h) blob.length offset ++ dir,
               blob ++ payload)

/-- Model of `build_ico`: build the directory (first offset
`6 + 16*N`), then emit the 6-byte header (reserved 0, type 1, count N —
`struct.pack("<HHH", 0, 1, N)`, whose `<H` field constrains N to 16
bits), the directory, and the payload blob. -/
def build_ico (blobs : List (List Nat)) : Except GenErr (List Nat) :=
  match buildEntries blobs (6 + 16 * blobs.length) with
  | .error e => .error e
  | .ok (dir, payload) =>
    if 65536 ≤ blobs.length then .error .packRange
    else .ok (toLE 2 0 ++ toLE 2 1 ++ toLE 2 blobs.length ++ dir ++ payload)

/-! ## Paeth predictor (`validate_app_icons.paeth_predictor`) -/

/-- Model of `paeth_predictor`, computed over `Int` since
`p = a + b - c` can be negative. -/
def paeth_predictor (a b c : Nat) : Nat :=
  let p : Int := (a : Int) + (b : Int) - (c : Int)
  let pa := (p - (a : Int)).natAbs
  let pb := (p - (b : Int)).natAbs
  let pc := (p - (c : Int)).natAbs
  if pa ≤ pb ∧ pa ≤ pc then a
  else if pb ≤ pc then b
  else c

/-! ## PNG scanline defiltering (`decode_png_rgba_alpha_bounds`, row loop)

Each of the Python filter branches is a loop
`for i in range(row_bytes): recon[i] = f(recon, i)` over a `bytearray`
initialized to zeros, where `f` reads only positions `< i` (or positions
that still hold their initial 0).  `buildRow f n` models such a loop:
it produces the list of assigned values, and a read of a not-yet-written
position yields the initial 0 via `getD`'s default. -/

/-- The in-place byte loop: `buildRow f n` is the row after assigning
positions `0..n-1`, where position `i` is assigned `f acc i` with `acc`
the row built so far. -/
def buildRow (f : List Nat → Nat → Nat) : Nat → List Nat
  | 0 => []
  | n + 1 => buildRow f n ++ [f (buildRow f n) n]

/-- Reconstruct one scanline from its filter-type byte, the filtered
bytes `raw`, and the previous reconstructed row `prev`, following the
five filter branches of the source; any other filter type is a
`fail()` (`none`). -/
def reconRow (filt : Nat) (raw prev : List Nat) (bpp rowBytes : Nat) : Option (List Nat) :=
  if filt = 0 then some raw
  else if filt = 1 then
    some (buildRow (fun acc i =>
      (raw.getD i 0 + (if bpp ≤ i then acc.getD (i - bpp) 0 else 0)) % 256) rowBytes)
  else if filt = 2 then
    some (buildRow (fun _ i => (raw.getD i 0 + prev.getD i 0) % 256) rowBytes)
  else if filt = 3 then
    some (buildRow (fun acc i =>
      (raw.getD i 0 +
        ((if bpp ≤ i then acc.getD (i - bpp) 0 else 0) + prev.getD i 0) / 2) % 256) rowBytes)
  else if filt = 4 then
    some (buildRow (fun acc i =>
      (raw.getD i 0 +
        paeth_predictor (if bpp ≤ i then acc.getD (i - bpp) 0 else 0)
          (prev.getD i 0)
          (if bpp ≤ i then prev.getD (i - bpp) 0 else 0)) % 256) rowBytes)
  else none

/-- The per-row loop of the decoder: with `n` rows remaining, read the
filter byte at `pos`, slice the `rowBytes` filtered bytes after it,
reconstruct against `prev`, and continue with the reconstructed row as
the new previous row. -/
def decodeRowsGo (payload : List Nat) (rowBytes bpp : Nat) :
    Nat → Nat → List Nat → Option (List (List Nat))
  | 0, _, _ => some []
  | n + 1, pos, prev =>
    let filt := payload.getD pos 0
    let raw := (payload.drop (pos + 1)).take rowBytes
    match reconRow filt raw prev bpp rowBytes with
    | none => none
    | some recon =>
      match decodeRowsGo payload rowBytes bpp n (pos + 1 + rowBytes) recon with
      | none => none
      | some rest => some (recon :: rest)

/-- Reconstruct all `height` scanlines of a decompressed PNG payload;
the previous row starts as `row_bytes` zero bytes
(`prev_row = bytes(row_bytes)`). -/
def decodeRows (payload : List Nat) (rowBytes bpp height : Nat) : Option (List (List Nat)) :=
  decodeRowsGo payload rowBytes bpp height 0 (List.replicate rowBytes 0)

/-! ## Alpha bounding box and coverage (`decode_png_rgba_alpha_bounds`, scan loop) -/

/-- The uniform alpha accessor over a decoded row: grayscale/truecolor
rows are fully opaque; GrayscaleAlpha reads `row[x*2+1]`; the remaining
(TruecolorAlpha) branch reads `row[x*4+3]`. -/
def alphaAt (colorType : Nat) (row : List Nat) (x : Nat) : Nat :=
  if colorType = 0 ∨ colorType = 2 then 255
  else if colorType = 4 then row.getD (x * 2 + 1) 0
  else row.getD (x * 4 + 3) 0

/-- Running bounding-box state: `min_x`, `min_y`, `max_x`, `max_y` as
integers (the maxima are initialized to `-1`). -/
structure BBox where
  minX : Int
  minY : Int
  maxX : Int
  maxY : Int
  deriving DecidableEq, Repr

/-- Update the bounding box with a qualifying pixel `(x, y)`. -/
def bboxUpd (st : BBox) (x y : Nat) : BBox :=
  ⟨min st.minX x, min st.minY y, max st.maxX x, max st.maxY y⟩

/-- Scan one row: `for x in range(width)`, update on pixels with
alpha > 0. -/
def scanRow (colorType : Nat) (row : List Nat) (y width : Nat) (st : BBox) : BBox :=
  (List.range width).foldl
    (fun s x => if 0 < alphaAt colorType row x then bboxUpd s x y else s) st

/-- Scan all rows (`for y, row in enumerate(rows)`), threading the
bounding-box state. -/
def scanRows (colorType width : Nat) : List (List Nat) → Nat → BBox → BBox
  | [], _, st => st
  | row :: rest, y, st =>
    scanRows colorType width rest (y + 1) (scanRow colorType row y width st)

/-- The coverage stage of the decoder: compute the bounding box of
pixels with alpha > 0 (minima initialized to `width`/`height`, maxima to
`-1`), fail ("fully transparent") when `max < min` on either axis, and
otherwise return the two per-axis coverage fractions as rationals. -/
def alphaCoverage (width height colorType : Nat) (rows : List (List Nat)) :
    Except Unit (ℚ × ℚ) :=
  let st := scanRows colorType width rows 0 ⟨(width : Int), (height : Int), -1, -1⟩
  if st.maxX < st.minX ∨ st.maxY < st.minY then .error ()
  else
    .ok (((st.maxX - st.minX + 1 : Int) : ℚ) / (width : ℚ),
         ((st.maxY - st.minY + 1 : Int) : ℚ) / (height : ℚ))

/-! ## PNG chunk walk (`decode_png_rgba_alpha_bounds`, chunk loop) -/

/-- The IHDR fields the decoder keeps. -/
structure IhdrInfo where
  width : Nat
  height : Nat
  bitDepth : Nat
  colorType : Nat
  deriving DecidableEq, Repr

/-- Result of the chunk loop: normal exit with the last IHDR fields seen
and the concatenated IDAT bytes; a `fail()` on unsupported
compression/filter/interlace options; or an uncaught `struct.error`
when an IHDR chunk carries fewer than the 13 bytes
`struct.unpack_from(">IIBBBBB", ...)` requires. -/
inductive ChunkRes
  | done : Option IhdrInfo → List Nat → ChunkRes
  | optsFail : ChunkRes
  | exc : ChunkRes
  deriving DecidableEq, Repr

/-- The chunk loop `while cursor + 8 <= len(data)`: read the 4-byte
big-endian length and 4-byte type, slice the (possibly clamped) chunk
data, and dispatch on IHDR/IDAT/IEND; the cursor advances past the
4-byte CRC. -/
def chunkStep (data : List Nat) (cursor : Nat) (ihdr : Option IhdrInfo) (idat : List Nat) :
    ChunkRes :=
  if h : cursor + 8 ≤ data.length then
    let clen := readBE32 data cursor
    let ctype := (data.drop (cursor + 4)).take 4
    let cdata := (data.drop (cursor + 8)).take clen
    if ctype = [73, 72, 68, 82] then
      if cdata.length < 13 then ChunkRes.exc
      else
        let w := readBE32 cdata 0
        let ht := readBE32 cdata 4
        let bd := cdata.getD 8 0
        let ct := cdata.getD 9 0
        let comp := cdata.getD 10 0
        let filtM := cdata.getD 11 0
        let inter := cdata.getD 12 0
        if comp ≠ 0 ∨ filtM ≠ 0 ∨ inter ≠ 0 then ChunkRes.optsFail
        else chunkStep data (cursor + 8 + clen + 4) (some ⟨w, ht, bd, ct⟩) idat
    else if ctype = [73, 68, 65, 84] then
      chunkStep data (cursor + 8 + clen + 4) ihdr (idat ++ cdata)
    else if ctype = [73, 69, 78, 68] then ChunkRes.done ihdr idat
    else chunkStep data (cursor + 8 + clen + 4) ihdr idat
  else ChunkRes.done ihdr idat
termination_by data.length - cursor
decreasing_by all_goals omega

/-! ## The full decoder (`decode_png_rgba_alpha_bounds`) -/

/-- The channel count per color type
(`channels_by_color_type = {0: 1, 2: 3, 4: 2, 6: 4}`). -/
def channelsOf (colorType : Nat) : Option Nat :=
  if colorType = 0 then some 1
  else if colorType = 2 then some 3
  else if colorType = 4 then some 2
  else if colorType = 6 then some 4
  else none

/-- The `fail()` causes of the full decoder. -/
inductive DecErr
  | notPng
  | unsupportedOptions
  | missingHeader
  | badBitDepth
  | badColorType
  | sizeMismatch
  | badFilter
  | fullyTransparent
  deriving DecidableEq, Repr

/-- Uncaught exceptions the decoder can raise. -/
inductive CrashErr
  | ihdrShort
  | zlibError
  deriving DecidableEq, Repr

/-- How a run of the decoder terminates: a returned
`(width, height, coverage_w, coverage_h)` tuple, a `fail()` call
(the FormatError taxonomy), or an uncaught exception. -/
inductive DOut
  | ok : Nat → Nat → ℚ → ℚ → DOut
  | err : DecErr → DOut
  | crash : CrashErr → DOut
  deriving DecidableEq, Repr

/-- `True` exactly on the uncaught-exception outcomes. -/
def DOut.isCrash : DOut → Bool
  | .crash _ => true
  | _ => false

/-- Model of `decode_png_rgba_alpha_bounds`.  `inflate` stands for
`zlib.decompress`, an external collaborator: `none` models a raised
`zlib.error`. -/
def decode_png_rgba_alpha_bounds (inflate : List Nat → Option (List Nat))
    (data : List Nat) : DOut :=
  if data.length < 8 ∨ data.take 8 ≠ png_signature then .err .notPng
  else
    match chunkStep data 8 none [] with
    | .exc => .crash .ihdrShort
    | .optsFail => .err .unsupportedOptions
    | .done none _ => .err .missingHeader
    | .done (some ihdr) idat =>
      if ihdr.bitDepth ≠ 8 then .err .badBitDepth
      else
        match channelsOf ihdr.colorType with
        | none => .err .badColorType
        | some channels =>
          match inflate idat with
          | none => .crash .zlibError
          | some payload =>
            if payload.length ≠ (ihdr.width * channels + 1) * ihdr.height then
              .err .sizeMismatch
            else
              match decodeRows payload (ihdr.width * channels) channels ihdr.height with
              | none => .err .badFilter
              | some rows =>
                match alphaCoverage ihdr.width ihdr.height ihdr.colorType rows with
                | .error _ => .err .fullyTransparent
                | .ok (cw, ch) => .ok ihdr.width ihdr.height cw ch

/-! ## The validator's ICO size-set check (`main`, lines 198–203) -/

/-- The canonical ICO size list `EXPECTED_ICO_SIZES`. -/
def EXPECTED_ICO_SIZES : List Nat := [16, 24, 32, 40, 48, 64, 128, 256]

/-- The orchestrator's size check:
`sorted(parse_ico_sizes(...)) != EXPECTED_ICO_SIZES` aborts, so the
check passes exactly when the sorted resolved sizes equal the canonical
list. -/
def icoSizeCheck (sizes : List Nat) : Bool :=
  List.insertionSort (· ≤ ·) sizes == EXPECTED_ICO_SIZES

/-- A 16-byte input: PNG signature, then a chunk declaring length 0 and
type IHDR with no data at all. -/
def shortIhdrInput : List Nat := png_signature ++ [0, 0, 0, 0] ++ [73, 72, 68, 82]

/-! ## Concrete inputs and spec-side layouts used by the claims -/

/-- A 24-byte input with a valid signature whose first chunk has type
`JUNK` (bytes 74, 85, 78, 75), not `IHDR`. -/
def junkChunkInput : List Nat :=
  png_signature ++ [0, 0, 0, 13] ++ [74, 85, 78, 75] ++ [0, 0, 0, 2, 0, 0, 0, 3]

/-- A 16-byte ICO directory entry whose width and height bytes are `b`
and whose other 14 bytes are zero. -/
def dupEntry (b : Nat) : List Nat := b :: b :: List.replicate 14 0

/-- An ICO with nine entries: the canonical eight sizes plus a second
16×16 entry. -/
def dupSizesIco : List Nat :=
  [0, 0, 1, 0, 9, 0] ++ ([16, 16, 24, 32, 40, 48, 64, 128, 0].map dupEntry).flatten

def BBoxSafe (W ym : Nat) (st : BBox) : Prop :=
  0 ≤ st.minX ∧ st.maxX < (W : Int) ∧ 0 ≤ st.minY ∧ st.maxY < (ym : Int)

def BBoxEst (st : BBox) : Prop :=
  st.minX ≤ st.maxX ∧ st.minY ≤ st.maxY

/-- The ICO directory as the spec describes it: one 16-byte entry per
image, offsets cumulative — each entry's offset is the running offset
and the next entry's offset adds the current payload length. -/
def icoDirBytes : List Nat → List Nat → Nat → List Nat
  | s :: ss, len :: lens, off =>
    entryBytes (icoEncodeDim s) (icoEncodeDim s) len off ++ icoDirBytes ss lens (off + len)
  | _, _, _ => []

/-- A 24-byte PNG header blob declaring 256×256 dimensions. -/
def png256blob : List Nat :=
  png_signature ++ [0, 0, 0, 13] ++ [73, 72, 68, 82] ++ [0, 0, 1, 0, 0, 0, 1, 0]

/-- The ICO container built from the single blob `png256blob`. -/
def icoOut256 : List Nat :=
  [0, 0, 1, 0, 1, 0, 0, 0, 0, 0, 1, 0, 32, 0, 24, 0, 0, 0, 22, 0, 0, 0] ++ png256blob

/-- The filter rule the spec states for byte `i` of reconstructed row
`r` (stated from the spec's words, to be compared with the decoder's
row loop): the output byte equals the filtered byte combined with the
left/above/upper-left neighbours according to the row's filter-type
byte, mod 256, with the previous row all zeros for the first row and
out-of-range neighbour reads taken as 0. -/
def filterRuleSpec (payload : List Nat) (rowBytes bpp : Nat)
    (rows : List (List Nat)) (r i : Nat) : Prop :=
  let row := rows.getD r []
  let prevR : List Nat :=
    if r = 0 then List.replicate rowBytes 0 else rows.getD (r - 1) []
  let filt := payload.getD (r * (rowBytes + 1)) 0
  let raw := payload.getD (r * (rowBytes + 1) + 1 + i) 0
  let left := if bpp ≤ i then row.getD (i - bpp) 0 else 0
  let up := prevR.getD i 0
  let upLeft := if bpp ≤ i then prevR.getD (i - bpp) 0 else 0
  row.getD i 0 =
    if filt = 0 then raw
    else if filt = 1 then (raw + left) % 256
    else if filt = 2 then (raw + up) % 256
    else if filt = 3 then (raw + (left + up) / 2) % 256
    else (raw + paeth_predictor left up upLeft) % 256

/-! ## General list helper lemmas -/

theorem toLE_length (n v : Nat) : (toLE n v).length = n := by
  induction n generalizing v with
  | zero => rfl
  | succ n ih => simp [toLE, ih]

theorem getD_take {α : Type _} (d : α) :
    ∀ (l : List α) (n i : Nat), i < n → (l.take n).getD i d = l.getD i d
  | _, 0, _, h => absurd h (by omega)
  | [], _ + 1, _, _ => by simp
  | _ :: _, _ + 1, 0, _ => rfl
  | _ :: l, n + 1, i + 1, h => by
    simpa using getD_take d l n i (by omega)

theorem getD_drop {α : Type _} (d : α) :
    ∀ (l : List α) (m i : Nat), (l.drop m).getD i d = l.getD (m + i) d
  | _, 0, _ => by simp
  | [], _ + 1, _ => by simp
  | _ :: l, m + 1, i => by
    rw [show m + 1 + i = m + i + 1 from by omega]
    exact getD_drop d l m i

theorem getD_slice {α : Type _} (d : α) (l : List α) (a n i : Nat) (h : i < n) :
    ((l.drop a).take n).getD i d = l.getD (a + i) d := by
  rw [getD_take d _ n i h, getD_drop]

theorem getD_replicate_self {α : Type _} (d : α) :
    ∀ n i, (List.replicate n d).getD i d = d
  | 0, _ => rfl
  | _ + 1, 0 => rfl
  | n + 1, i + 1 => getD_replicate_self d n i

theorem getD_congr_of_take_eq {α : Type _} (d : α) {l1 l2 : List α} {n : Nat}
    (h : l1.take n = l2.take n) {i : Nat} (hi : i < n) :
    l1.getD i d = l2.getD i d := by
  rw [← getD_take d l1 n i hi, h, getD_take d l2 n i hi]

/-! ## Claim C2 — the Paeth predictor -/

/-- **C2.** For all byte values `a`, `b`, `c`, the Paeth predictor
computes `p = a + b - c`, the three absolute distances, and returns `a`
if `pa ≤ pb ∧ pa ≤ pc`, else `b` if `pb ≤ pc`, else `c` (stated here
over `Int` absolute values, independently of the implementation's
`natAbs`); in particular `paeth(10,20,15) = 15`, `paeth(0,0,0) = 0`,
and every three-way tie resolves to `a`. -/
theorem claim_C2_paeth :
    (∀ a b c : Nat,
      paeth_predictor a b c =
        if |(a : Int) + b - c - a| ≤ |(a : Int) + b - c - b| ∧
            |(a : Int) + b - c - a| ≤ |(a : Int) + b - c - c| then a
        else if |(a : Int) + b - c - b| ≤ |(a : Int) + b - c - c| then b
        else c) ∧
    paeth_predictor 10 20 15 = 15 ∧ paeth_predictor 0 0 0 = 0 ∧
    (∀ a b c : Nat,
      |(a : Int) + b - c - a| = |(a : Int) + b - c - b| →
      |(a : Int) + b - c - a| = |(a : Int) + b - c - c| →
      paeth_predictor a b c = a) := by
  have key : ∀ x y : Int, (|x| ≤ |y|) ↔ (x.natAbs ≤ y.natAbs) := by
    intro x y
    rw [Int.abs_eq_natAbs, Int.abs_eq_natAbs]
    exact Int.ofNat_le
  refine ⟨?_, by decide, by decide, ?_⟩
  · intro a b c
    simp only [paeth_predictor, key]
  · intro a b c h1 h2
    have h1' : ((a : Int) + b - c - a).natAbs = ((a : Int) + b - c - b).natAbs := by
      have := h1
      rw [Int.abs_eq_natAbs, Int.abs_eq_natAbs] at this
      exact_mod_cast this
    have h2' : ((a : Int) + b - c - a).natAbs = ((a : Int) + b - c - c).natAbs := by
      have := h2
      rw [Int.abs_eq_natAbs, Int.abs_eq_natAbs] at this
      exact_mod_cast this
    simp [paeth_predictor, ← h1', ← h2']

/-- Witness for C2: the three-way-tie clause applied at `(0, 0, 0)`. -/
theorem claim_C2_witness : paeth_predictor 0 0 0 = 0 :=
  claim_C2_paeth.2.2.2 0 0 0 (by decide) (by decide)

/-! ## Claim C9 — the PNG header reader -/

/-- **C9, counterexample.** The claim says an input whose first chunk is
not of type `IHDR` is not accepted; but `png_dimensions` never examines
the chunk type: this input's first chunk has type `JUNK` and it is
accepted with dimensions (2, 3). -/
theorem claim_C9_counterexample :
    png_dimensions junkChunkInput = .ok (2, 3) ∧
    (junkChunkInput.drop 12).take 4 ≠ [73, 72, 68, 82] := by
  constructor
  · rfl
  · decide

/-- **C9, amended.** The header reader fails exactly when the 8-byte
signature is absent or the input is shorter than 24 bytes; otherwise it
returns width and height read as big-endian 32-bit integers from bytes
16..24 (the first 8 data bytes of the first chunk), and the 4-byte
chunk-type field (bytes 12..16) is never examined: replacing it by any
other 4 bytes leaves the result unchanged. -/
theorem claim_C9_amended :
    (∀ data : List Nat, data.length < 24 ∨ data.take 8 ≠ png_signature →
      png_dimensions data = .error .notValidPng) ∧
    (∀ data : List Nat, 24 ≤ data.length → data.take 8 = png_signature →
      png_dimensions data = .ok (readBE32 data 16, readBE32 data 20)) ∧
    (∀ pre t1 t2 suf : List Nat, pre.length = 12 → t1.length = 4 → t2.length = 4 →
      png_dimensions (pre ++ t1 ++ suf) = png_dimensions (pre ++ t2 ++ suf)) := by
  refine ⟨?_, ?_, ?_⟩
  · intro data h
    simp only [png_dimensions, if_pos h]
  · intro data h1 h2
    have h' : ¬(data.length < 24 ∨ data.take 8 ≠ png_signature) := by
      push_neg
      exact ⟨by omega, h2⟩
    rw [png_dimensions, if_neg h']
  · intro pre t1 t2 suf hpre ht1 ht2
    have hlen : (pre ++ t1 ++ suf).length = (pre ++ t2 ++ suf).length := by
      simp [hpre, ht1, ht2]
    have htake : (pre ++ t1 ++ suf).take 8 = (pre ++ t2 ++ suf).take 8 := by
      rw [List.append_assoc, List.append_assoc,
        List.take_append_of_le_length (by omega),
        List.take_append_of_le_length (by omega)]
    have hread : ∀ k, 16 ≤ k →
        (pre ++ t1 ++ suf).getD k 0 = (pre ++ t2 ++ suf).getD k 0 := by
      intro k hk
      rw [List.append_assoc, List.append_assoc,
        List.getD_append_right pre (t1 ++ suf) 0 k (by omega),
        List.getD_append_right pre (t2 ++ suf) 0 k (by omega),
        List.getD_append_right t1 suf 0 (k - pre.length) (by omega),
        List.getD_append_right t2 suf 0 (k - pre.length) (by omega),
        ht1, ht2]
    simp only [png_dimensions, readBE32]
    rw [hlen, htake, hread 16 (by omega), hread 17 (by omega), hread 18 (by omega),
      hread 19 (by omega), hread 20 (by omega), hread 21 (by omega),
      hread 22 (by omega), hread 23 (by omega)]

/-- Witness for C9's amended claim: the acceptance clause applied to a
signature followed by 16 zero bytes. -/
theorem claim_C9_witness :
    png_dimensions (png_signature ++ List.replicate 16 0) = .ok (0, 0) := by
  have := claim_C9_amended.2.1 (png_signature ++ List.replicate 16 0)
    (by decide) (by decide)
  simpa using this

/-! ## Claim C6 — the orchestrator's ICO size check -/

/-- **C6, counterexample.** This ICO's resolved sizes form exactly the
canonical set `{16, 24, 32, 40, 48, 64, 128, 256}` (as a set), yet the
orchestrator's size check rejects it: the check compares the *sorted
list* with the canonical list, so a duplicated size defeats it even
though set equality holds. -/
theorem claim_C6_counterexample :
    parse_ico_sizes dupSizesIco = .ok [16, 16, 24, 32, 40, 48, 64, 128, 256] ∧
    ([16, 16, 24, 32, 40, 48, 64, 128, 256] : List Nat).toFinset =
      EXPECTED_ICO_SIZES.toFinset ∧
    icoSizeCheck [16, 16, 24, 32, 40, 48, 64, 128, 256] = false := by
  refine ⟨?_, ?_, ?_⟩
  · set_option maxRecDepth 8192 in decide
  · set_option maxRecDepth 4096 in decide
  · set_option maxRecDepth 4096 in decide

/-- **C6, amended.** The size check passes exactly when the resolved
sizes are a *permutation* of the canonical list (multiset equality —
same sizes with the same multiplicities), not mere set equality. -/
theorem claim_C6_amended (sizes : List Nat) :
    icoSizeCheck sizes = true ↔ sizes.Perm EXPECTED_ICO_SIZES := by
  simp only [icoSizeCheck, beq_iff_eq]
  constructor
  · intro h
    exact h ▸ (List.perm_insertionSort _ sizes).symm
  · intro h
    have h1 : (List.insertionSort (· ≤ ·) sizes).Perm EXPECTED_ICO_SIZES :=
      (List.perm_insertionSort _ sizes).trans h
    exact List.eq_of_perm_of_sorted h1 (List.sorted_insertionSort _ sizes) (by decide)

/-! ## Claim C10 — the ICO reader reads only header and directory -/

theorem icoEntries_congr {d1 d2 : List Nat} {N : Nat}
    (hi : ∀ i, i < N → d1.getD i 0 = d2.getD i 0) :
    ∀ k idx, 6 + (idx + k) * 16 ≤ N → icoEntries d1 idx k = icoEntries d2 idx k := by
  intro k
  induction k with
  | zero => intro idx _; rfl
  | succ k ih =>
    intro idx hb
    have e0 : d1.getD (6 + idx * 16) 0 = d2.getD (6 + idx * 16) 0 :=
      hi _ (by omega)
    have e1 : d1.getD (6 + idx * 16 + 1) 0 = d2.getD (6 + idx * 16 + 1) 0 :=
      hi _ (by omega)
    have erec : icoEntries d1 (idx + 1) k = icoEntries d2 (idx + 1) k :=
      ih (idx + 1) (by omega)
    simp only [icoEntries, e0, e1, erec]

/-- **C10.** The ICO reader's outcome depends only on the header and
directory bytes: two inputs that agree on their first
`6 + 16 × count` bytes (with `count` the entry count declared in the
header, and both inputs extending at least that far) parse to identical
results; the trailing payload region is never read. -/
theorem claim_C10_directory_only (d1 d2 : List Nat)
    (hn1 : 6 + (readLE16 d1 4) * 16 ≤ d1.length)
    (hn2 : 6 + (readLE16 d1 4) * 16 ≤ d2.length)
    (hpre : d1.take (6 + (readLE16 d1 4) * 16) = d2.take (6 + (readLE16 d1 4) * 16)) :
    parse_ico_sizes d1 = parse_ico_sizes d2 := by
  have hi : ∀ i, i < 6 + (readLE16 d1 4) * 16 → d1.getD i 0 = d2.getD i 0 :=
    fun i hilt => getD_congr_of_take_eq 0 hpre hilt
  have hr0 : readLE16 d1 0 = readLE16 d2 0 := by
    rw [readLE16, readLE16, hi 0 (by omega), hi 1 (by omega)]
  have hr2 : readLE16 d1 2 = readLE16 d2 2 := by
    rw [readLE16, readLE16, hi 2 (by omega), hi 3 (by omega)]
  have hr4 : readLE16 d1 4 = readLE16 d2 4 := by
    rw [readLE16, readLE16, hi 4 (by omega), hi 5 (by omega)]
  have hent : icoEntries d1 0 (readLE16 d1 4) = icoEntries d2 0 (readLE16 d1 4) :=
    icoEntries_congr hi (readLE16 d1 4) 0 (by omega)
  have l1 : ¬(d1.length < 6) := by omega
  have l2 : ¬(d2.length < 6) := by omega
  simp only [parse_ico_sizes]
  rw [if_neg l1, if_neg l2, ← hr0, ← hr2, ← hr4]
  by_cases hhd : readLE16 d1 0 ≠ 0 ∨ readLE16 d1 2 ≠ 1
  · rw [if_pos hhd, if_pos hhd]
  · have l3 : ¬(d1.length < 6 + (readLE16 d1 4) * 16) := by omega
    have l4 : ¬(d2.length < 6 + (readLE16 d1 4) * 16) := by omega
    rw [if_neg hhd, if_neg hhd, if_neg l3, if_neg l4, hent]

/-- Witness for C10: a count-0 ICO header with and without a trailing
byte parses identically. -/
theorem claim_C10_witness :
    parse_ico_sizes [0, 0, 1, 0, 0, 0] = parse_ico_sizes [0, 0, 1, 0, 0, 0, 99] :=
  claim_C10_directory_only [0, 0, 1, 0, 0, 0] [0, 0, 1, 0, 0, 0, 99]
    (by decide) (by decide) (by decide)

/-! ## Claim C8 — the alpha coverage analyzer

Lemmas about the bounding-box scan.  `BBoxSafe` says the state's minima
are nonnegative and its maxima below the image bounds (true of the
initial state and preserved by every update); `BBoxEst` says the
bounding box is nonempty (established by any update and preserved
thereafter). -/

theorem scanRow_succ (ct : Nat) (row : List Nat) (y w : Nat) (st : BBox) :
    scanRow ct row y (w + 1) st =
      if 0 < alphaAt ct row w then bboxUpd (scanRow ct row y w st) w y
      else scanRow ct row y w st := by
  simp [scanRow, List.range_succ, List.foldl_append]

theorem scanRow_safe (ct : Nat) (row : List Nat) {W ym y : Nat} (hy : y < ym) :
    ∀ (w : Nat) (st : BBox), w ≤ W → BBoxSafe W ym st →
      BBoxSafe W ym (scanRow ct row y w st) := by
  intro w
  induction w with
  | zero => intro st _ h; simpa [scanRow] using h
  | succ w ih =>
    intro st hw h
    rw [scanRow_succ]
    rcases ih st (by omega) h with ⟨a1, a2, a3, a4⟩
    split
    · refine ⟨?_, ?_, ?_, ?_⟩ <;> simp [bboxUpd] <;> omega
    · exact ⟨a1, a2, a3, a4⟩

theorem scanRows_safe (ct W : Nat) {ym : Nat} :
    ∀ (rows : List (List Nat)) (y0 : Nat) (st : BBox), y0 + rows.length ≤ ym →
      BBoxSafe W ym st → BBoxSafe W ym (scanRows ct W rows y0 st)
  | [], _, _, _, h => h
  | row :: rest, y0, st, hb, h => by
    simp only [scanRows]
    exact scanRows_safe ct W rest (y0 + 1)
      (scanRow ct row y0 W st)
      (by simp at hb ⊢; omega)
      (scanRow_safe ct row (by simp at hb; omega) W st (le_refl W) h)

theorem scanRow_zero_fix (ct : Nat) (row : List Nat) (y : Nat) :
    ∀ (w : Nat) (st : BBox), (∀ x, x < w → alphaAt ct row x = 0) →
      scanRow ct row y w st = st := by
  intro w
  induction w with
  | zero => intro st _; simp [scanRow]
  | succ w ih =>
    intro st h
    rw [scanRow_succ, if_neg (by simp [h w (by omega)]), ih st (fun x hx => h x (by omega))]

theorem scanRows_zero_fix (ct W : Nat) :
    ∀ (rows : List (List Nat)) (y0 : Nat) (st : BBox),
      (∀ yi, yi < rows.length → ∀ x, x < W → alphaAt ct (rows.getD yi []) x = 0) →
      scanRows ct W rows y0 st = st
  | [], _, _, _ => rfl
  | row :: rest, y0, st, h => by
    simp only [scanRows]
    rw [scanRow_zero_fix ct row y0 W st (fun x hx => h 0 (by simp) x hx),
      scanRows_zero_fix ct W rest (y0 + 1) st
        (fun yi hyi x hx => by simpa using h (yi + 1) (by simpa using hyi) x hx)]

theorem bboxUpd_est (st : BBox) (x y : Nat) : BBoxEst (bboxUpd st x y) := by
  constructor <;> simp [bboxUpd]

theorem scanRow_est_pres (ct : Nat) (row : List Nat) (y : Nat) :
    ∀ (w : Nat) (st : BBox), BBoxEst st → BBoxEst (scanRow ct row y w st) := by
  intro w
  induction w with
  | zero => intro st h; simpa [scanRow] using h
  | succ w ih =>
    intro st h
    rw [scanRow_succ]
    split
    · exact bboxUpd_est _ _ _
    · exact ih st h

theorem scanRow_est (ct : Nat) (row : List Nat) (y : Nat) {x0 : Nat}
    (hq : 0 < alphaAt ct row x0) :
    ∀ (w : Nat) (st : BBox), x0 < w → BBoxEst (scanRow ct row y w st) := by
  intro w
  induction w with
  | zero => intro st h; omega
  | succ w ih =>
    intro st hx
    rw [scanRow_succ]
    rcases Nat.lt_or_ge x0 w with h | h
    · split
      · exact bboxUpd_est _ _ _
      · exact ih st h
    · have : x0 = w := by omega
      rw [if_pos (this ▸ hq)]
      exact bboxUpd_est _ _ _

theorem scanRows_est_pres (ct W : Nat) :
    ∀ (rows : List (List Nat)) (y0 : Nat) (st : BBox), BBoxEst st →
      BBoxEst (scanRows ct W rows y0 st)
  | [], _, _, h => h
  | row :: rest, y0, st, h => by
    simp only [scanRows]
    exact scanRows_est_pres ct W rest (y0 + 1) _ (scanRow_est_pres ct row y0 W st h)

theorem scanRows_est (ct W : Nat) :
    ∀ (rows : List (List Nat)) (y0 : Nat) (st : BBox) (yi x0 : Nat),
      yi < rows.length → x0 < W → 0 < alphaAt ct (rows.getD yi []) x0 →
      BBoxEst (scanRows ct W rows y0 st)
  | [], _, _, _, _, hyi, _, _ => by simp at hyi
  | row :: rest, y0, st, 0, x0, _, hx, hq => by
    simp only [scanRows]
    exact scanRows_est_pres ct W rest (y0 + 1) _
      (scanRow_est ct row y0 (by simpa using hq) W st hx)
  | row :: rest, y0, st, yi + 1, x0, hyi, hx, hq => by
    simp only [scanRows]
    exact scanRows_est ct W rest (y0 + 1) _ yi x0 (by simpa using hyi) hx (by simpa using hq)

/-- **C8.** For every decoded raster (rows list of the declared
height), the coverage analysis fails — the fully-transparent cause —
exactly when no pixel has alpha > 0; otherwise the two returned
coverage fractions both lie in the half-open interval (0, 1].  The
2×1 TruecolorAlpha example with one opaque and one transparent pixel
yields coverage (1/2, 1). -/
theorem claim_C8_coverage :
    (∀ (width height colorType : Nat) (rows : List (List Nat)), rows.length = height →
      ((alphaCoverage width height colorType rows = .error ()) ↔
        ∀ y, y < height → ∀ x, x < width → alphaAt colorType (rows.getD y []) x = 0) ∧
      (∀ cw ch : ℚ, alphaCoverage width height colorType rows = .ok (cw, ch) →
        0 < cw ∧ cw ≤ 1 ∧ 0 < ch ∧ ch ≤ 1)) ∧
    alphaCoverage 2 1 6 [[0, 0, 0, 255, 0, 0, 0, 0]] = .ok (1/2, 1) := by
  constructor
  · intro width height colorType rows hlen
    constructor
    · constructor
      · intro herr y hy x hx
        by_contra hq
        have hq' : 0 < alphaAt colorType (rows.getD y []) x := by omega
        have hest : BBoxEst (scanRows colorType width rows 0
            ⟨(width : Int), (height : Int), -1, -1⟩) :=
          scanRows_est colorType width rows 0 _ y x (by omega) hx hq'
        rw [alphaCoverage] at herr
        split at herr
        · rename_i hcond
          rcases hest with ⟨e1, e2⟩
          omega
        · exact absurd herr (by simp)
      · intro hzero
        rw [alphaCoverage,
          scanRows_zero_fix colorType width rows 0 _
            (fun yi hyi x hx => hzero yi (by omega) x hx),
          if_pos (by simp; omega)]
    · intro cw ch hok
      have hsafe : BBoxSafe width height (scanRows colorType width rows 0
          ⟨(width : Int), (height : Int), -1, -1⟩) :=
        scanRows_safe colorType width rows 0 _ (by omega)
          (by refine ⟨?_, ?_, ?_, ?_⟩ <;> simp <;> omega)
      rw [alphaCoverage] at hok
      split at hok
      · exact absurd hok (by simp)
      · rename_i hcond
        rcases hsafe with ⟨s1, s2, s3, s4⟩
        set st := scanRows colorType width rows 0
          ⟨(width : Int), (height : Int), -1, -1⟩ with hst
        have hx : st.minX ≤ st.maxX := by omega
        have hy : st.minY ≤ st.maxY := by omega
        have hwpos : 0 < width := by omega
        have hhpos : 0 < height := by omega
        have hcwf : cw = ((st.maxX - st.minX + 1 : Int) : ℚ) / (width : ℚ) := by
          simpa using congrArg (fun o => match o with
            | Except.ok (p : ℚ × ℚ) => p.1
            | Except.error _ => 0) hok.symm
        have hchf : ch = ((st.maxY - st.minY + 1 : Int) : ℚ) / (height : ℚ) := by
          simpa using congrArg (fun o => match o with
            | Except.ok (p : ℚ × ℚ) => p.2
            | Except.error _ => 0) hok.symm
        have hwq : (0 : ℚ) < (width : ℚ) := by exact_mod_cast hwpos
        have hhq : (0 : ℚ) < (height : ℚ) := by exact_mod_cast hhpos
        refine ⟨?_, ?_, ?_, ?_⟩
        · rw [hcwf]
          apply div_pos _ hwq
          have : (0 : Int) < st.maxX - st.minX + 1 := by omega
          exact_mod_cast this
        · rw [hcwf, div_le_one hwq]
          have : st.maxX - st.minX + 1 ≤ (width : Int) := by omega
          exact_mod_cast this
        · rw [hchf]
          apply div_pos _ hhq
          have : (0 : Int) < st.maxY - st.minY + 1 := by omega
          exact_mod_cast this
        · rw [hchf, div_le_one hhq]
          have : st.maxY - st.minY + 1 ≤ (height : Int) := by omega
          exact_mod_cast this
  · rw [alphaCoverage]
    norm_num [scanRows, scanRow, List.range_succ, alphaAt, bboxUpd]

/-! ## Claims C3/C4/C5 — the ICO builder and its round trip -/

theorem entryBytes_length (w h len off : Nat) : (entryBytes w h len off).length = 16 := by
  simp [entryBytes, toLE_length]

theorem icoDirBytes_length :
    ∀ (sides lens : List Nat) (off : Nat), sides.length = lens.length →
      (icoDirBytes sides lens off).length = 16 * sides.length
  | [], [], _, _ => rfl
  | [], _ :: _, _, h => by simp at h
  | _ :: _, [], _, h => by simp at h
  | s :: ss, len :: lens, off, h => by
    simp only [icoDirBytes, List.length_append, entryBytes_length,
      icoDirBytes_length ss lens (off + len) (by simpa using h), List.length_cons]
    ring

theorem resolve_encode {s : Nat} (h1 : 1 ≤ s) (h2 : s ≤ 256) :
    icoResolveDim (icoEncodeDim s) = s := by
  unfold icoResolveDim icoEncodeDim
  by_cases h : s = 256
  · simp [h]
  · simp [h]
    omega

theorem buildEntries_ok :
    ∀ (blobs : List (List Nat)) (sides : List Nat) (offset : Nat),
      sides.length = blobs.length →
      (∀ k, k < blobs.length →
        png_dimensions (blobs.getD k []) = .ok (sides.getD k 0, sides.getD k 0) ∧
        sides.getD k 0 ≤ 256) →
      offset + (blobs.map List.length).sum < 4294967296 →
      buildEntries blobs offset =
        .ok (icoDirBytes sides (blobs.map List.length) offset, blobs.flatten)
  | [], sides, offset => by
    intro h1 _ _
    have hs : sides = [] := List.eq_nil_of_length_eq_zero h1
    subst hs
    rfl
  | blob :: rest, sides, offset => by
    intro h1 h2 h3
    obtain ⟨s, srest, rfl⟩ : ∃ s srest, sides = s :: srest := by
      cases sides with
      | nil => simp at h1
      | cons a l => exact ⟨a, l, rfl⟩
    have hb0 := h2 0 (by simp)
    simp only [List.getD_cons_zero] at hb0
    have hrec := buildEntries_ok rest srest (offset + blob.length)
      (by simpa using h1)
      (fun k hk => by simpa using h2 (k + 1) (by simpa using hk))
      (by simp at h3 ⊢; omega)
    simp only [buildEntries, hb0.1]
    rw [if_neg (by omega : ¬(s ≠ s)), if_neg (by have := hb0.2; omega),
      if_neg (by simp at h3; omega), hrec]
    simp [icoDirBytes]

theorem buildEntries_shape :
    ∀ (blobs : List (List Nat)) (offset : Nat) (dir payload : List Nat),
      buildEntries blobs offset = .ok (dir, payload) →
      ∃ dims : List Nat, dims.length = blobs.length ∧
        (∀ k, k < blobs.length →
          png_dimensions (blobs.getD k []) = .ok (dims.getD k 0, dims.getD k 0)) ∧
        dir = icoDirBytes dims (blobs.map List.length) offset ∧
        payload = blobs.flatten
  | [], offset, dir, payload => by
    intro h
    simp only [buildEntries] at h
    refine ⟨[], rfl, fun k hk => absurd hk (by simp), ?_, ?_⟩
    · simpa [icoDirBytes] using (congrArg Prod.fst (Except.ok.inj h)).symm
    · simpa using (congrArg Prod.snd (Except.ok.inj h)).symm
  | blob :: rest, offset, dir, payload => by
    intro h
    rcases hpd : png_dimensions blob with e | wh
    · simp [buildEntries, hpd] at h
    · obtain ⟨w, hgt⟩ := wh
      simp only [buildEntries, hpd] at h
      split_ifs at h with hsq hov hrange
      have hw : w = hgt := by omega
      subst hw
      rcases h2 : buildEntries rest (offset + blob.length) with e2 | dp
      · rw [h2] at h; simp at h
      · obtain ⟨dir', payload'⟩ := dp
        rw [h2] at h
        have hdir : dir = entryBytes (icoEncodeDim w) (icoEncodeDim w) blob.length offset ++ dir' :=
          (congrArg Prod.fst (Except.ok.inj h)).symm
        have hpay : payload = blob ++ payload' :=
          (congrArg Prod.snd (Except.ok.inj h)).symm
        obtain ⟨dims', hlen', hpd', hdir', hpay'⟩ := buildEntries_shape rest (offset + blob.length) dir' payload' h2
        refine ⟨w :: dims', by simpa using hlen', ?_, ?_, ?_⟩
        · intro k hk
          match k with
          | 0 => simpa using hpd
          | Nat.succ k' => simpa using hpd' k' (by simpa using hk)
        · rw [hdir, hdir']
          simp [icoDirBytes]
        · rw [hpay, hpay']
          simp

theorem icoEntries_on_dir :
    ∀ (sides lens : List Nat) (off idx : Nat) (pre rest : List Nat),
      pre.length = 6 + idx * 16 → sides.length = lens.length →
      (∀ s ∈ sides, 1 ≤ s ∧ s ≤ 256) →
      icoEntries (pre ++ icoDirBytes sides lens off ++ rest) idx sides.length = .ok sides
  | [], lens, off, idx, pre, rest => by intro _ _ _; rfl
  | s :: ss, [], off, idx, pre, rest => by intro _ h _; simp at h
  | s :: ss, len :: lens, off, idx, pre, rest => by
    intro hpre hlen hrange
    have hsr := hrange s (by simp)
    have hdata : pre ++ icoDirBytes (s :: ss) (len :: lens) off ++ rest =
        (pre ++ entryBytes (icoEncodeDim s) (icoEncodeDim s) len off) ++
          icoDirBytes ss lens (off + len) ++ rest := by
      simp [icoDirBytes]
    have hw : (pre ++ icoDirBytes (s :: ss) (len :: lens) off ++ rest).getD (6 + idx * 16) 0 =
        icoEncodeDim s := by
      rw [List.append_assoc,
        List.getD_append_right pre _ 0 (6 + idx * 16) (by omega), hpre]
      simp [icoDirBytes, entryBytes]
    have hh : (pre ++ icoDirBytes (s :: ss) (len :: lens) off ++ rest).getD (6 + idx * 16 + 1) 0 =
        icoEncodeDim s := by
      rw [List.append_assoc,
        List.getD_append_right pre _ 0 (6 + idx * 16 + 1) (by omega), hpre]
      simp [icoDirBytes, entryBytes, show 6 + idx * 16 + 1 - (6 + idx * 16) = 1 from by omega]
    have hrec := icoEntries_on_dir ss lens (off + len) (idx + 1)
      (pre ++ entryBytes (icoEncodeDim s) (icoEncodeDim s) len off) rest
      (by simp [entryBytes_length, hpre]; omega)
      (by simpa using hlen)
      (fun x hx => hrange x (by simp [hx]))
    rw [← hdata] at hrec
    simp only [List.length_cons, icoEntries, hw, hh]
    rw [if_neg (by omega :
      ¬(icoResolveDim (icoEncodeDim s) ≠ icoResolveDim (icoEncodeDim s)))]
    simp only [hrec, resolve_encode hsr.1 hsr.2]

/-- **C3.** Building an ICO from blobs that the header reader sees as
square with sides 1..256 (within the container's 16-bit count and
32-bit length/offset field ranges) and parsing it back yields exactly
the input sides, in directory order — in particular the same multiset
of N sizes, which is the claim's order-independent equality. -/
theorem claim_C3_ico_roundtrip (blobs : List (List Nat)) (sides : List Nat)
    (hlen : sides.length = blobs.length)
    (hdim : ∀ k, k < blobs.length →
      png_dimensions (blobs.getD k []) = .ok (sides.getD k 0, sides.getD k 0) ∧
      1 ≤ sides.getD k 0 ∧ sides.getD k 0 ≤ 256)
    (hcount : blobs.length < 65536)
    (hsize : 6 + 16 * blobs.length + (blobs.map List.length).sum < 4294967296) :
    ∃ out, build_ico blobs = .ok out ∧ parse_ico_sizes out = .ok sides := by
  have hbe := buildEntries_ok blobs sides (6 + 16 * blobs.length) hlen
    (fun k hk => ⟨(hdim k hk).1, (hdim k hk).2.2⟩) (by omega)
  have hhdr : toLE 2 0 ++ toLE 2 1 ++ toLE 2 blobs.length =
      [0, 0, 1, 0, blobs.length % 256, blobs.length / 256 % 256] := by
    simp [toLE]
  have hb : build_ico blobs = .ok
      ([0, 0, 1, 0, blobs.length % 256, blobs.length / 256 % 256] ++
        icoDirBytes sides (blobs.map List.length) (6 + 16 * blobs.length) ++
        blobs.flatten) := by
    simp only [build_ico, hbe]
    rw [if_neg (by omega), ← hhdr]
  refine ⟨_, hb, ?_⟩
  have hmaplen : sides.length = (blobs.map List.length).length := by simpa using hlen
  have hdlen : (icoDirBytes sides (blobs.map List.length)
      (6 + 16 * blobs.length)).length = 16 * blobs.length := by
    rw [icoDirBytes_length sides (blobs.map List.length) _ hmaplen, hlen]
  set dirE := icoDirBytes sides (blobs.map List.length) (6 + 16 * blobs.length) with hdirE
  set data := [0, 0, 1, 0, blobs.length % 256, blobs.length / 256 % 256] ++
      dirE ++ blobs.flatten with hdata
  have hgd : ∀ i, i < 6 → data.getD i 0 =
      ([0, 0, 1, 0, blobs.length % 256, blobs.length / 256 % 256] : List Nat).getD i 0 := by
    intro i hi
    rw [hdata, List.append_assoc, List.getD_append _ _ _ _ (by simp; omega)]
  have hr0 : readLE16 data 0 = 0 := by
    rw [readLE16, hgd 0 (by omega), hgd 1 (by omega)]
    rfl
  have hr2 : readLE16 data 2 = 1 := by
    rw [readLE16, hgd 2 (by omega), hgd 3 (by omega)]
    rfl
  have hr4 : readLE16 data 4 = blobs.length := by
    rw [readLE16, hgd 4 (by omega), hgd 5 (by omega)]
    show blobs.length % 256 + 256 * (blobs.length / 256 % 256) = blobs.length
    omega
  have hdatalen : data.length = 6 + 16 * blobs.length + blobs.flatten.length := by
    rw [hdata]
    simp [hdlen]
    omega
  have hranges : ∀ s ∈ sides, 1 ≤ s ∧ s ≤ 256 := by
    intro s hs
    obtain ⟨k, hk, hks⟩ := List.getElem_of_mem hs
    have hd := hdim k (by omega)
    have hgk : sides.getD k 0 = s := by rw [List.getD_eq_getElem _ _ hk, hks]
    rw [hgk] at hd
    exact ⟨hd.2.1, hd.2.2⟩
  have hent := icoEntries_on_dir sides (blobs.map List.length) (6 + 16 * blobs.length) 0
    [0, 0, 1, 0, blobs.length % 256, blobs.length / 256 % 256] blobs.flatten
    (by simp) hmaplen hranges
  rw [hlen] at hent
  simp only [parse_ico_sizes]
  rw [if_neg (by omega), hr0, hr2, hr4, if_neg (by simp), if_neg (by omega)]
  exact hent

/-- Witness for C3: the single-blob bundle with a 256×256 PNG. -/
theorem claim_C3_witness :
    ∃ out, build_ico [png256blob] = .ok out ∧ parse_ico_sizes out = .ok [256] :=
  claim_C3_ico_roundtrip [png256blob] [256] (by decide)
    (fun k hk => by
      have hk' : k < 1 := by simpa using hk
      have hk0 : k = 0 := by omega
      subst hk0
      refine ⟨by decide, by decide, by decide⟩)
    (by decide) (by decide)

/-- **C4.** The builder's directory dimension byte is the raw dimension
except that 256 is written as the sentinel byte 0; the reader maps
byte 0 back to 256 and every nonzero byte to itself; hence every side
1..256 — in particular 256 — round-trips, as the end-to-end 256×256
container shows. -/
theorem claim_C4_size256_sentinel :
    (∀ b : Nat, icoResolveDim b = if b = 0 then 256 else b) ∧
    (∀ d : Nat, d ≤ 256 → icoEncodeDim d = if d = 256 then 0 else d) ∧
    (∀ d : Nat, 1 ≤ d → d ≤ 256 → icoResolveDim (icoEncodeDim d) = d) ∧
    (build_ico [png256blob] = .ok icoOut256 ∧
      icoOut256.getD 6 0 = 0 ∧ icoOut256.getD 7 0 = 0 ∧
      parse_ico_sizes icoOut256 = .ok [256]) := by
  refine ⟨?_, ?_, ?_, by decide, by decide, by decide, by decide⟩
  · intro b
    unfold icoResolveDim
    by_cases h : b = 0 <;> simp [h]
  · intro d _
    unfold icoEncodeDim
    by_cases h : d = 256 <;> simp [h]
  · intro d h1 h2
    exact resolve_encode h1 h2

/-- Witness for C4: the sentinel round trip at dimension 256. -/
theorem claim_C4_witness : icoResolveDim (icoEncodeDim 256) = 256 :=
  claim_C4_size256_sentinel.2.2.1 256 (by decide) (by decide)

/-- **C5.** Every successful build is exactly the 6-byte header
(reserved 0, type 1, 16-bit count N < 2^16), then the directory
`icoDirBytes` — N 16-byte entries with color-count 0, reserved 0,
planes 1, bit-depth 32, little-endian 32-bit payload length and
cumulative offset starting at 6 + 16·N — then the payloads
concatenated in input order. -/
theorem claim_C5_ico_layout (blobs : List (List Nat)) (out : List Nat)
    (h : build_ico blobs = .ok out) :
    blobs.length < 65536 ∧
    ∃ dims : List Nat, dims.length = blobs.length ∧
      (∀ k, k < blobs.length →
        png_dimensions (blobs.getD k []) = .ok (dims.getD k 0, dims.getD k 0)) ∧
      out = toLE 2 0 ++ toLE 2 1 ++ toLE 2 blobs.length ++
        icoDirBytes dims (blobs.map List.length) (6 + 16 * blobs.length) ++
        blobs.flatten := by
  unfold build_ico at h
  rcases h2 : buildEntries blobs (6 + 16 * blobs.length) with e | dp
  · rw [h2] at h; simp at h
  · obtain ⟨dir, payload⟩ := dp
    simp only [h2] at h
    split_ifs at h with hcnt
    obtain ⟨dims, hdl, hdim, hdir, hpay⟩ := buildEntries_shape blobs _ dir payload h2
    have hout : out = toLE 2 0 ++ toLE 2 1 ++ toLE 2 blobs.length ++ dir ++ payload :=
      (Except.ok.inj h).symm
    exact ⟨by omega, dims, hdl, hdim, by rw [hout, hdir, hpay]⟩

/-- Witness for C5: the layout of the single-blob 256×256 container. -/
theorem claim_C5_witness :
    ([png256blob] : List (List Nat)).length < 65536 ∧
    ∃ dims : List Nat, dims.length = ([png256blob] : List (List Nat)).length ∧
      (∀ k, k < ([png256blob] : List (List Nat)).length →
        png_dimensions ([png256blob].getD k []) = .ok (dims.getD k 0, dims.getD k 0)) ∧
      icoOut256 = toLE 2 0 ++ toLE 2 1 ++
        toLE 2 ([png256blob] : List (List Nat)).length ++
        icoDirBytes dims ([png256blob].map List.length)
          (6 + 16 * ([png256blob] : List (List Nat)).length) ++
        ([png256blob] : List (List Nat)).flatten :=
  claim_C5_ico_layout [png256blob] icoOut256 (by decide)

/-! ## Claim C1 — scanline defiltering -/

theorem buildRow_length (f : List Nat → Nat → Nat) :
    ∀ n, (buildRow f n).length = n
  | 0 => rfl
  | n + 1 => by simp [buildRow, buildRow_length f n]

theorem buildRow_getD (f : List Nat → Nat → Nat) :
    ∀ n i, i < n → (buildRow f n).getD i 0 = f (buildRow f i) i := by
  intro n
  induction n with
  | zero => intro i hi; omega
  | succ n ih =>
    intro i hi
    rcases Nat.lt_or_ge i n with h | h
    · rw [buildRow, List.getD_append _ _ _ _ (by rw [buildRow_length]; omega), ih i h]
    · have hin : i = n := by omega
      subst hin
      rw [buildRow, List.getD_append_right _ _ _ _ (by rw [buildRow_length]),
        buildRow_length]
      simp

theorem buildRow_getD_agree (f : List Nat → Nat → Nat) {m n j : Nat}
    (hmn : m ≤ n) (hj : j < m) :
    (buildRow f n).getD j 0 = (buildRow f m).getD j 0 := by
  rw [buildRow_getD f n j (by omega), buildRow_getD f m j hj]

theorem reconRow_isSome (filt : Nat) (raw prev : List Nat) (bpp rowBytes : Nat) :
    (reconRow filt raw prev bpp rowBytes).isSome ↔ filt ≤ 4 := by
  unfold reconRow
  split_ifs with h0 h1 h2 h3 h4 <;> simp <;> omega

/-- Every byte of a reconstructed scanline satisfies the filter rule of
its filter-type byte: type 0 copies, 1 adds the left byte, 2 the byte
above, 3 the floor-average of left and above, 4 the Paeth prediction —
all mod 256, with out-of-range left/upper-left reads taken as 0. -/
theorem reconRow_byte {filt : Nat} {raw prev row : List Nat} {bpp rowBytes : Nat}
    (hbpp : 1 ≤ bpp) (h : reconRow filt raw prev bpp rowBytes = some row)
    (i : Nat) (hi : i < rowBytes) :
    row.getD i 0 =
      if filt = 0 then raw.getD i 0
      else if filt = 1 then
        (raw.getD i 0 + (if bpp ≤ i then row.getD (i - bpp) 0 else 0)) % 256
      else if filt = 2 then (raw.getD i 0 + prev.getD i 0) % 256
      else if filt = 3 then
        (raw.getD i 0 +
          ((if bpp ≤ i then row.getD (i - bpp) 0 else 0) + prev.getD i 0) / 2) % 256
      else
        (raw.getD i 0 +
          paeth_predictor (if bpp ≤ i then row.getD (i - bpp) 0 else 0) (prev.getD i 0)
            (if bpp ≤ i then prev.getD (i - bpp) 0 else 0)) % 256 := by
  unfold reconRow at h
  split_ifs at h with h0 h1 h2 h3 h4
  · have hrow : row = raw := (Option.some.inj h).symm
    subst hrow
    rw [if_pos h0]
  · have hrow : row = buildRow (fun acc i =>
        (raw.getD i 0 + (if bpp ≤ i then acc.getD (i - bpp) 0 else 0)) % 256) rowBytes :=
      (Option.some.inj h).symm
    subst hrow
    rw [if_neg h0, if_pos h1, buildRow_getD _ rowBytes i hi]
    by_cases hbi : bpp ≤ i
    · rw [if_pos hbi, if_pos hbi, buildRow_getD_agree _ (le_of_lt hi) (by omega)]
    · rw [if_neg hbi, if_neg hbi]
  · have hrow : row = buildRow (fun _ i => (raw.getD i 0 + prev.getD i 0) % 256) rowBytes :=
      (Option.some.inj h).symm
    subst hrow
    rw [if_neg h0, if_neg h1, if_pos h2, buildRow_getD _ rowBytes i hi]
  · have hrow : row = buildRow (fun acc i =>
        (raw.getD i 0 +
          ((if bpp ≤ i then acc.getD (i - bpp) 0 else 0) + prev.getD i 0) / 2) % 256)
        rowBytes := (Option.some.inj h).symm
    subst hrow
    rw [if_neg h0, if_neg h1, if_neg h2, if_pos h3, buildRow_getD _ rowBytes i hi]
    by_cases hbi : bpp ≤ i
    · rw [if_pos hbi, if_pos hbi, buildRow_getD_agree _ (le_of_lt hi) (by omega)]
    · rw [if_neg hbi, if_neg hbi]
  · have hrow : row = buildRow (fun acc i =>
        (raw.getD i 0 +
          paeth_predictor (if bpp ≤ i then acc.getD (i - bpp) 0 else 0) (prev.getD i 0)
            (if bpp ≤ i then prev.getD (i - bpp) 0 else 0)) % 256) rowBytes :=
      (Option.some.inj h).symm
    subst hrow
    rw [if_neg h0, if_neg h1, if_neg h2, if_neg h3, buildRow_getD _ rowBytes i hi]
    by_cases hbi : bpp ≤ i
    · simp only [if_pos hbi]
      rw [buildRow_getD_agree _ (le_of_lt hi) (by omega)]
    · simp only [if_neg hbi]

theorem decodeRowsGo_isSome (payload : List Nat) (rowBytes bpp : Nat) :
    ∀ (n pos : Nat) (prev : List Nat),
      (decodeRowsGo payload rowBytes bpp n pos prev).isSome ↔
        ∀ r, r < n → payload.getD (pos + r * (rowBytes + 1)) 0 ≤ 4 := by
  intro n
  induction n with
  | zero => intro pos prev; simp [decodeRowsGo]
  | succ n ih =>
    intro pos prev
    rcases hrec : reconRow (payload.getD pos 0) ((payload.drop (pos + 1)).take rowBytes)
        prev bpp rowBytes with _ | recon
    · have h0 : ¬(payload.getD pos 0 ≤ 4) := by
        have hs := reconRow_isSome (payload.getD pos 0)
          ((payload.drop (pos + 1)).take rowBytes) prev bpp rowBytes
        rw [hrec] at hs
        simpa using hs.symm
      simp only [decodeRowsGo, hrec]
      constructor
      · intro hcontr; exact absurd hcontr (by simp)
      · intro hall
        exact absurd (by simpa using hall 0 (by omega)) h0
    · have h0 : payload.getD pos 0 ≤ 4 := by
        have hs := reconRow_isSome (payload.getD pos 0)
          ((payload.drop (pos + 1)).take rowBytes) prev bpp rowBytes
        rw [hrec] at hs
        simpa using hs
      have hiff := ih (pos + 1 + rowBytes) recon
      simp only [decodeRowsGo, hrec]
      constructor
      · intro hs r hr
        rcases h2 : decodeRowsGo payload rowBytes bpp n (pos + 1 + rowBytes) recon
            with _ | rest
        · rw [h2] at hs; simp at hs
        · match r with
          | 0 => simpa using h0
          | Nat.succ r' =>
            have hr' := (hiff.mp (by rw [h2]; simp)) r' (by omega)
            rw [show pos + (r' + 1) * (rowBytes + 1) =
              pos + 1 + rowBytes + r' * (rowBytes + 1) from by ring]
            exact hr'
      · intro hall
        have hrest : (decodeRowsGo payload rowBytes bpp n (pos + 1 + rowBytes) recon).isSome := by
          apply hiff.mpr
          intro r hr
          have hx := hall (r + 1) (by omega)
          rw [show pos + (r + 1) * (rowBytes + 1) =
            pos + 1 + rowBytes + r * (rowBytes + 1) from by ring] at hx
          exact hx
        rcases h2 : decodeRowsGo payload rowBytes bpp n (pos + 1 + rowBytes) recon
            with _ | rest
        · rw [h2] at hrest; simp at hrest
        · simp [h2]

theorem decodeRowsGo_spec (payload : List Nat) (rowBytes bpp : Nat) :
    ∀ (n pos : Nat) (prev : List Nat) (rows : List (List Nat)),
      decodeRowsGo payload rowBytes bpp n pos prev = some rows →
      rows.length = n ∧
      ∀ r, r < n →
        reconRow (payload.getD (pos + r * (rowBytes + 1)) 0)
          ((payload.drop (pos + r * (rowBytes + 1) + 1)).take rowBytes)
          (if r = 0 then prev else rows.getD (r - 1) []) bpp rowBytes =
          some (rows.getD r []) := by
  intro n
  induction n with
  | zero =>
    intro pos prev rows h
    simp [decodeRowsGo] at h
    subst h
    exact ⟨rfl, fun r hr => absurd hr (by omega)⟩
  | succ n ih =>
    intro pos prev rows h
    rcases hrec : reconRow (payload.getD pos 0) ((payload.drop (pos + 1)).take rowBytes)
        prev bpp rowBytes with _ | recon
    · simp only [decodeRowsGo, hrec] at h
      exact absurd h (by simp)
    · simp only [decodeRowsGo, hrec] at h
      rcases h2 : decodeRowsGo payload rowBytes bpp n (pos + 1 + rowBytes) recon
          with _ | rest
      · rw [h2] at h; simp at h
      · rw [h2] at h
        have hrows : rows = recon :: rest := (Option.some.inj h).symm
        subst hrows
        obtain ⟨hlen, hspec⟩ := ih (pos + 1 + rowBytes) recon rest h2
        refine ⟨by simp [hlen], ?_⟩
        intro r hr
        match r with
        | 0 => simpa using hrec
        | Nat.succ r' =>
          have hs := hspec r' (by omega)
          have hsel : (recon :: rest).getD r' [] =
              if r' = 0 then recon else rest.getD (r' - 1) [] := by
            cases r' <;> simp
          rw [show pos + (r' + 1) * (rowBytes + 1) =
            pos + 1 + rowBytes + r' * (rowBytes + 1) from by ring,
            if_neg (by omega : ¬(r' + 1 = 0)),
            show r' + 1 - 1 = r' from by omega, hsel,
            show (recon :: rest).getD (r' + 1) [] = rest.getD r' [] from rfl]
          exact hs

/-- **C1.** For every decompressed payload the defiltering stage
accepts (`bpp ≥ 1` being the channel count), reconstruction succeeds
exactly when every row's filter-type byte is 0..4 — any other filter
byte fails the decode — and each byte of each reconstructed row
satisfies the five filter rules (`filterRuleSpec`): type 0 copies the
filtered byte, type 1 adds the left byte at `i - bpp` (0 when
`i < bpp`), type 2 adds the byte above, type 3 adds the integer floor
average of left and above, type 4 adds the Paeth prediction, all
mod 256, against a previous row of zeros for the first row. -/
theorem claim_C1_defilter_rules (payload : List Nat) (rowBytes bpp height : Nat)
    (hbpp : 1 ≤ bpp) :
    ((decodeRows payload rowBytes bpp height).isSome ↔
      ∀ r, r < height → payload.getD (r * (rowBytes + 1)) 0 ≤ 4) ∧
    ∀ rows, decodeRows payload rowBytes bpp height = some rows →
      rows.length = height ∧
      ∀ r, r < height → ∀ i, i < rowBytes →
        filterRuleSpec payload rowBytes bpp rows r i := by
  constructor
  · have h := decodeRowsGo_isSome payload rowBytes bpp height 0 (List.replicate rowBytes 0)
    simpa [decodeRows] using h
  · intro rows hrows
    simp only [decodeRows] at hrows
    obtain ⟨hlen, hspec⟩ := decodeRowsGo_spec payload rowBytes bpp height 0
      (List.replicate rowBytes 0) rows hrows
    refine ⟨hlen, ?_⟩
    intro r hr i hi
    have hrec := hspec r hr
    simp only [Nat.zero_add] at hrec
    have hbyte := reconRow_byte hbpp hrec i hi
    rw [getD_slice 0 payload (r * (rowBytes + 1) + 1) rowBytes i hi] at hbyte
    simpa only [filterRuleSpec] using hbyte

/-- Witness for C1: a 2×2-byte payload using filters 1 (Sub) and
2 (Up); the rule instance for row 1, byte 0. -/
theorem claim_C1_witness :
    decodeRows [1, 5, 10, 2, 7, 9] 2 1 2 = some [[5, 15], [12, 24]] ∧
    filterRuleSpec [1, 5, 10, 2, 7, 9] 2 1 [[5, 15], [12, 24]] 1 0 :=
  ⟨by decide,
    ((claim_C1_defilter_rules [1, 5, 10, 2, 7, 9] 2 1 2 (by decide)).2
      [[5, 15], [12, 24]] (by decide)).2 1 (by decide) 0 (by decide)⟩

/-! ## Claim C7 — decoder termination modes -/

/-- **C7, counterexample.** The claim says every input either yields a
raster or fails with a FormatError.  But on a syntactically valid PNG
whose IHDR chunk carries fewer than 13 data bytes, the decoder's
`struct.unpack_from(">IIBBBBB", chunk_data, 0)` raises an uncaught
`struct.error` — neither a result nor a `fail()` call. -/
theorem claim_C7_counterexample :
    decode_png_rgba_alpha_bounds (fun _ => some []) shortIhdrInput = .crash .ihdrShort := by
  have h : chunkStep shortIhdrInput 8 none [] = ChunkRes.exc := by
    rw [chunkStep]
    decide
  simp [decode_png_rgba_alpha_bounds, h]
  decide

/-- **C7, amended.** Provided the chunk walk never hits an IHDR chunk
with fewer than 13 data bytes (which raises an uncaught `struct.error`)
and inflation never raises (`zlib.error`), the decoder terminates with
either a result tuple or a `fail()` call — never an uncaught
exception. -/
theorem claim_C7_amended (inflate : List Nat → Option (List Nat)) (data : List Nat)
    (h1 : chunkStep data 8 none [] ≠ ChunkRes.exc)
    (h2 : ∀ l, (inflate l).isSome) :
    DOut.isCrash (decode_png_rgba_alpha_bounds inflate data) = false := by
  rcases hval : decode_png_rgba_alpha_bounds inflate data with ⟨w, h, cw, ch⟩ | ⟨e⟩ | ⟨c⟩
  · rfl
  · rfl
  · exfalso
    unfold decode_png_rgba_alpha_bounds at hval
    split at hval
    · simp at hval
    · split at hval
      · rename_i heq
        exact h1 heq
      · simp at hval
      · simp at hval
      · rename_i ihdr idat heq
        split at hval
        · simp at hval
        · split at hval
          · simp at hval
          · rename_i channels hch
            split at hval
            · rename_i hinf
              have hs := h2 idat
              rw [hinf] at hs
              simp at hs
            · rename_i payload hinf
              split at hval
              · simp at hval
              · split at hval
                · simp at hval
                · rename_i rows hrows
                  split at hval
                  · simp at hval
                  · simp at hval

/-- Witness for C7's amended claim: the empty input (whose chunk walk
stops immediately) with a total inflate. -/
theorem claim_C7_witness :
    DOut.isCrash (decode_png_rgba_alpha_bounds (fun _ => some []) []) = false := by
  have h1 : chunkStep [] 8 none [] ≠ ChunkRes.exc := by
    rw [chunkStep]
    decide
  exact claim_C7_amended (fun _ => some []) [] h1 (fun l => rfl)

/-- Witness for C8: the analyzer applied to the 2×1 TruecolorAlpha
example image. -/
theorem claim_C8_witness :
    (alphaCoverage 2 1 6 [[0, 0, 0, 255, 0, 0, 0, 0]] = .error ()) ↔
      ∀ y, y < 1 → ∀ x, x < 2 →
        alphaAt 6 ([[0, 0, 0, 255, 0, 0, 0, 0]].getD y []) x = 0 :=
  ((claim_C8_coverage.1 2 1 6 [[0, 0, 0, 255, 0, 0, 0, 0]] (by decide)).1)

end ButterPaper
